import Mathlib

/-!
Verification of the Alpha Insights portfolio core: the holdings aggregator
(`calculate_holdings` in `models_old.py`), the transaction write path
(`create_transaction` route and model), the portfolio statistics
(`get_portfolio_stats`), the valuation service (`portfolio_service.py`),
and the alert / portfolio monitors (`websocket_service.py`).

Monetary amounts and share counts are Python floats in the source; they are
embedded as exact rationals (ℚ).  Wall-clock fields (`datetime.now()`,
`lastUpdated`, `triggeredAt`) are outside the embedding; Mongo ObjectIds are
embedded as natural numbers.
-/

namespace AlphaInsights

/-- Transaction type, field `type` of a transaction document: `"buy"` or
`"sell"` (the route rejects any other string). -/
inductive TxType where
  | buy
  | sell
deriving DecidableEq, Repr

/-- A document of the `transactions` collection: symbol, type, shares, price,
plus the transaction date and insertion id (ObjectId), embedded as naturals. -/
structure Tx where
  symbol : String
  kind : TxType
  shares : ℚ
  price : ℚ
  timestamp : ℕ
  insertId : ℕ
deriving DecidableEq, Repr

/-- Accumulator for one symbol while `calculate_holdings` folds the
transaction list: the running `totalShares`, `totalCost` and the
per-symbol transaction list that the Python dict keeps. -/
structure HoldingAcc where
  totalShares : ℚ
  totalCost : ℚ
  transactions : List Tx
deriving DecidableEq, Repr

/-- The fresh entry `{totalShares: 0, totalCost: 0, transactions: []}`
created when a symbol is first seen. -/
def HoldingAcc.empty : HoldingAcc := ⟨0, 0, []⟩

/-- One iteration of the `for transaction in transactions` loop body applied
to the entry of the transaction's symbol: a buy adds `shares` and
`shares * price`; a sell subtracts `shares` and `shares * price` (the sale
price, as written at `models_old.py:146-148`); the transaction is appended
to the entry's list in either case. -/
def HoldingAcc.apply (h : HoldingAcc) (t : Tx) : HoldingAcc :=
  match t.kind with
  | .buy => ⟨h.totalShares + t.shares, h.totalCost + t.shares * t.price,
      h.transactions ++ [t]⟩
  | .sell => ⟨h.totalShares - t.shares, h.totalCost - t.shares * t.price,
      h.transactions ++ [t]⟩

/-- The `holdings` dict of `calculate_holdings`, embedded as an association
list from symbol to accumulator in first-seen (insertion) order, exactly the
iteration order of a Python dict. -/
def insertTx (hs : List (String × HoldingAcc)) (t : Tx) :
    List (String × HoldingAcc) :=
  if hs.any (fun p => p.1 == t.symbol) then
    hs.map (fun p => if p.1 = t.symbol then (p.1, p.2.apply t) else p)
  else
    hs ++ [(t.symbol, HoldingAcc.empty.apply t)]

/-- The complete fold of the transaction loop of `calculate_holdings` over a
transaction list, before the `totalShares > 0` filter. -/
def foldHoldings (txs : List Tx) : List (String × HoldingAcc) :=
  txs.foldl insertTx []

/-- An entry of the `active_holdings` dict returned by `calculate_holdings`:
the accumulator fields plus `averageCost = totalCost / totalShares`. -/
structure Holding where
  totalShares : ℚ
  totalCost : ℚ
  averageCost : ℚ
  transactions : List Tx
deriving DecidableEq, Repr

/-- `calculate_holdings` (`models_old.py:125-159`) on an already-fetched
transaction list: fold every transaction into the per-symbol accumulators,
then keep only symbols with `totalShares > 0`, computing `averageCost`
for exactly those.  (`get_portfolio_transactions` hands the list over
newest-first; the fold below is applied to the list as given.) -/
def calculate_holdings (txs : List Tx) : List (String × Holding) :=
  (foldHoldings txs).filterMap (fun p =>
    if 0 < p.2.totalShares then
      some (p.1, ⟨p.2.totalShares, p.2.totalCost,
        p.2.totalCost / p.2.totalShares, p.2.transactions⟩)
    else none)

/-- Dictionary lookup on an association list: the value of the first entry
whose key is the requested symbol. -/
def findEntry {α : Type} : List (String × α) → String → Option α
  | [], _ => none
  | p :: rest, s => if p.1 = s then some p.2 else findEntry rest s

/-- A numeric projection of the accumulator of symbol `s`, taken as `0` when
the symbol has no entry. -/
def accProj (f : HoldingAcc → ℚ) (hs : List (String × HoldingAcc))
    (s : String) : ℚ :=
  match findEntry hs s with
  | some h => f h
  | none => 0

/-- Folded `totalShares` of a symbol. -/
def accShares (hs : List (String × HoldingAcc)) (s : String) : ℚ :=
  accProj HoldingAcc.totalShares hs s

/-- Folded `totalCost` of a symbol. -/
def accCost (hs : List (String × HoldingAcc)) (s : String) : ℚ :=
  accProj HoldingAcc.totalCost hs s

/-- Signed share delta of one transaction: `+shares` for a buy,
`-shares` for a sell. -/
def signedShares (t : Tx) : ℚ :=
  match t.kind with
  | .buy => t.shares
  | .sell => -t.shares

/-- Signed cost delta of one transaction: `+shares*price` for a buy,
`-shares*price` for a sell. -/
def signedCost (t : Tx) : ℚ :=
  match t.kind with
  | .buy => t.shares * t.price
  | .sell => -(t.shares * t.price)

/-- Outcome of the transaction-create route: HTTP 201 with the new id, or an
HTTP 400 validation error with its message. -/
inductive RouteOutcome where
  | created (txid : ℕ)
  | badRequest (msg : String)
deriving DecidableEq, Repr

/-- Python `str.upper()` as applied to ticker symbols, embedded
character-wise. -/
def upperStr (s : String) : String := ⟨s.data.map Char.toUpper⟩

/-- Model-layer `create_transaction` (`models_old.py:76-87`): build the
document (uppercasing the symbol) and `insert_one` it — an unconditional
append to the ledger, with no check against current holdings. -/
def create_transaction (ledger : List Tx) (symbol : String) (kind : TxType)
    (shares price : ℚ) (ts txid : ℕ) : List Tx :=
  ledger ++ [⟨upperStr symbol, kind, shares, price, ts, txid⟩]

/-- Validation and dispatch of the POST transaction route
(`app/routes/transactions.py:28-85`, same checks at `app_old.py:987-1032`):
reject a type other than `buy`/`sell`, reject non-positive shares or price,
otherwise hand the data to the model layer.  No oversell check appears in
the route. -/
def create_transaction_route (ledger : List Tx) (symbol ty : String)
    (shares price : ℚ) (ts txid : ℕ) : List Tx × RouteOutcome :=
  if ty = "buy" ∨ ty = "sell" then
    if shares ≤ 0 ∨ price ≤ 0 then
      (ledger, .badRequest "Shares and price must be positive numbers")
    else
      (create_transaction ledger symbol
        (if ty = "buy" then .buy else .sell) shares price ts txid,
       .created txid)
  else
    (ledger, .badRequest "Transaction type must be buy or sell")

/-- The `summary` part of `get_portfolio_stats` (`models_old.py:241-271`). -/
structure StatsSummary where
  totalValue : ℚ
  totalCost : ℚ
  totalGainLoss : ℚ
  totalGainLossPercent : ℚ
  holdingsCount : ℕ
deriving DecidableEq, Repr

/-- `get_portfolio_stats` summary computation (`models_old.py:241-271`):
accumulate `totalCost` over the active holdings, and accumulate
`totalValue` as `totalShares * averageCost` per holding (the source comment
reads: using the average cost as placeholder for a market price); then
gain/loss and its zero-guarded percentage. -/
def get_portfolio_stats (txs : List Tx) : StatsSummary :=
  let holdings := calculate_holdings txs
  let total_cost : ℚ := holdings.foldl (fun acc p => acc + p.2.totalCost) 0
  let total_value : ℚ :=
    holdings.foldl (fun acc p => acc + p.2.totalShares * p.2.averageCost) 0
  let total_gain_loss := total_value - total_cost
  let total_gain_loss_percent :=
    if 0 < total_cost then total_gain_loss / total_cost * 100 else 0
  ⟨total_value, total_cost, total_gain_loss, total_gain_loss_percent,
    holdings.length⟩

/-- Inputs of `enhanceHolding` read off one active holding:
`totalShares`, `totalCost`, `averageCost`. -/
structure HoldingView where
  totalShares : ℚ
  totalCost : ℚ
  averageCost : ℚ
deriving DecidableEq, Repr

/-- A quote dict as consumed by `get_portfolio_holdings`: the code reads it
with `quote.get('price', ...)` and `quote.get('previous_close', ...)`, so
either key may be absent. -/
structure QuoteData where
  price : Option ℚ
  previous_close : Option ℚ
deriving DecidableEq, Repr

/-- One element of the list returned by `get_portfolio_holdings`
(`portfolio_service.py:129-163`).  The positional `id` field and the
wall-clock `lastUpdated` field are identical in both source branches and
are left out of the embedding; every field that depends on the holding or
on the quote is kept.  `dayChange` stores the day-change percentage, as the
source does. -/
structure EnhancedHolding where
  symbol : String
  name : String
  shares : ℚ
  avgCost : ℚ
  currentPrice : ℚ
  totalValue : ℚ
  totalCost : ℚ
  unrealizedGain : ℚ
  unrealizedGainPercent : ℚ
  dayChange : ℚ
  sector : String
deriving DecidableEq, Repr

/-- The per-holding body of `get_portfolio_holdings`
(`portfolio_service.py:110-163`): with a quote, price and previous close
default to `averageCost` resp. the current price, and market value, gains
and day change are derived from them; with no quote, the holding is valued
at `averageCost` with a day change of `0`.  No field records which branch
was taken. -/
def enhanceHolding (symbol : String) (h : HoldingView)
    (q : Option QuoteData) : EnhancedHolding :=
  match q with
  | some quote =>
      let current_price := quote.price.getD h.averageCost
      let previous_close := quote.previous_close.getD current_price
      let market_value := h.totalShares * current_price
      let unrealized_gain := market_value - h.totalCost
      let unrealized_gain_percent :=
        if 0 < h.totalCost then unrealized_gain / h.totalCost * 100 else 0
      let day_change := current_price - previous_close
      let day_change_percent :=
        if 0 < previous_close then day_change / previous_close * 100 else 0
      ⟨symbol, symbol, h.totalShares, h.averageCost, current_price,
        market_value, h.totalCost, unrealized_gain, unrealized_gain_percent,
        day_change_percent, "Unknown"⟩
  | none =>
      let market_value := h.totalShares * h.averageCost
      let unrealized_gain := market_value - h.totalCost
      let unrealized_gain_percent :=
        if 0 < h.totalCost then unrealized_gain / h.totalCost * 100 else 0
      ⟨symbol, symbol, h.totalShares, h.averageCost, h.averageCost,
        market_value, h.totalCost, unrealized_gain, unrealized_gain_percent,
        0, "Unknown"⟩

/-- The `total_market_value` of `get_portfolio_summary`
(`portfolio_service.py:189`): the sum of the holdings' `totalValue`. -/
def sumTotalValue (holdings : List EnhancedHolding) : ℚ :=
  holdings.foldl (fun acc h => acc + h.totalValue) 0

/-- The `total_previous_value` accumulation of `get_portfolio_summary`
(`portfolio_service.py:199-209`): holdings whose stored day-change percent
is nonzero contribute `shares * currentPrice / (1 + dayChange/100)`;
holdings with zero day-change percent are skipped. -/
def sumPreviousValue (holdings : List EnhancedHolding) : ℚ :=
  holdings.foldl (fun acc h =>
    if h.dayChange ≠ 0 then
      acc + h.shares * (h.currentPrice / (1 + h.dayChange / 100))
    else acc) 0

/-- The daily-change aggregation of `get_portfolio_summary`
(`portfolio_service.py:189-213`): the pair
(dailyChange, dailyChangePercent) is `(tmv - tpv, (tmv - tpv)/tpv*100)`
when the holdings list is nonempty and the previous value is positive, and
`(0, 0)` otherwise. -/
def summaryDailyChange (holdings : List EnhancedHolding) : ℚ × ℚ :=
  if holdings.isEmpty then (0, 0)
  else
    let total_market_value := sumTotalValue holdings
    let total_previous_value := sumPreviousValue holdings
    if 0 < total_previous_value then
      (total_market_value - total_previous_value,
       (total_market_value - total_previous_value) / total_previous_value
         * 100)
    else (0, 0)

/-- Alert condition, field `condition`: `'above'` or `'below'`. -/
inductive Cond where
  | above
  | below
deriving DecidableEq, Repr

/-- An in-memory price alert of the notification service
(`services/websocket_service.py:45-58`), the fields the monitor reads. -/
structure PriceAlert where
  condition : Cond
  targetPrice : ℚ
  enabled : Bool
  triggered : Bool
deriving DecidableEq, Repr

/-- One `_monitor_alerts` pass over a single alert
(`services/websocket_service.py:163-202`): a disabled or already-triggered
alert is skipped; a missing quote is skipped; otherwise the condition is
evaluated as `current ≥ target` for `above` and `current ≤ target` for
`below`, and on success `send_price_alert` emits the notification and marks
the alert triggered.  The Bool is whether `send_price_alert` ran. -/
def monitorPassAlert (a : PriceAlert) (quote : Option ℚ) :
    PriceAlert × Bool :=
  if !a.enabled || a.triggered then (a, false)
  else
    match quote with
    | none => (a, false)
    | some current =>
        let shouldTrigger : Bool :=
          match a.condition with
          | .above => a.targetPrice ≤ current
          | .below => current ≤ a.targetPrice
        if shouldTrigger then
          (⟨a.condition, a.targetPrice, a.enabled, true⟩, true)
        else (a, false)

/-- Successive monitor passes over a quote price sequence, returning the
per-pass notification flags and the final alert state. -/
def runMonitorTrace (a : PriceAlert) (prices : List ℚ) :
    List Bool × PriceAlert :=
  match prices with
  | [] => ([], a)
  | p :: ps =>
      let r := monitorPassAlert a (some p)
      let rest := runMonitorTrace r.1 ps
      (r.2 :: rest.1, rest.2)

/-- The decision part of one `_monitor_portfolios` evaluation for one user
(`old files/services/websocket_service.py:294-318`): notify when there is
no previous value, when the absolute change reaches 1% of the previous
value or $100, or when the daily change percent reaches 2% in magnitude. -/
def portfolioShouldUpdate (previous : Option ℚ)
    (currentValue dailyChangePercent : ℚ) : Bool :=
  match previous with
  | none => true
  | some prev =>
      let valueChange := |currentValue - prev|
      let valueChangePercent :=
        if 0 < prev then valueChange / prev * 100 else 0
      if 1 ≤ valueChangePercent ∨ 100 ≤ valueChange then true
      else if 2 ≤ |dailyChangePercent| then true
      else false

/-- One `_monitor_portfolios` evaluation for one user
(`old files/services/websocket_service.py:294-340`): when the decision is
positive the update is sent and `last_portfolio_values[user_id]` is set to
the new value; otherwise nothing is sent and the stored value is left as it
was.  Returns (notified, stored baseline after the pass). -/
def monitorPortfolioStep (previous : Option ℚ)
    (currentValue dailyChangePercent : ℚ) : Bool × Option ℚ :=
  if portfolioShouldUpdate previous currentValue dailyChangePercent then
    (true, some currentValue)
  else (false, previous)

/-- The two flags of an alert that the monitor race manipulates. -/
structure AlertFlag where
  enabled : Bool
  triggered : Bool
deriving DecidableEq, Repr

/-- The read phase of one monitor pass over one alert: the pass decides to
fire iff it observes the alert enabled and untriggered and the price
condition met (`services/websocket_service.py:170-194`). -/
def alertPassDecision (a : AlertFlag) (conditionMet : Bool) : Bool :=
  a.enabled && !a.triggered && conditionMet

/-- The commit phase: a pass that decided to fire sends the notification
and then sets `triggered := true` unconditionally — `send_price_alert`
(`services/websocket_service.py:123-141`) performs no check of the current
flag at write time.  Returns the new state and the notification count. -/
def alertPassCommit (a : AlertFlag) (decision : Bool) : AlertFlag × ℕ :=
  if decision then (⟨a.enabled, true⟩, 1) else (a, 0)

/-- Two monitor passes racing on the same alert, interleaved so that both
read phases run before either commit phase — a schedule the source permits,
since nothing orders the read at line 171 against the write at line 139. -/
def runInterleavedPasses (a : AlertFlag) (conditionMet : Bool) :
    AlertFlag × ℕ :=
  let d1 := alertPassDecision a conditionMet
  let d2 := alertPassDecision a conditionMet
  let r1 := alertPassCommit a d1
  let r2 := alertPassCommit r1.1 d2
  (r2.1, r1.2 + r2.2)

/-- Two monitor passes run back to back: the second pass reads the state the
first pass committed. -/
def runSequentialPasses (a : AlertFlag) (conditionMet : Bool) :
    AlertFlag × ℕ :=
  let d1 := alertPassDecision a conditionMet
  let r1 := alertPassCommit a d1
  let d2 := alertPassDecision r1.1 conditionMet
  let r2 := alertPassCommit r1.1 d2
  (r2.1, r1.2 + r2.2)

/-- A document of the `price_alerts` collection, the fields
`trigger_price_alert` touches. -/
structure DbAlert where
  id : ℕ
  isEnabled : Bool
  isTriggered : Bool
  triggeredPrice : Option ℚ
deriving DecidableEq, Repr

/-- `trigger_price_alert` (`models_old.py:323-330`) via `update_price_alert`:
`update_one` with the filter `{_id: alert_id}` alone — the filter carries no
`isTriggered: false` clause — setting `isTriggered` and `triggeredPrice` on
the first document matching the id. -/
def trigger_price_alert (store : List DbAlert) (aid : ℕ) (price : ℚ) :
    List DbAlert :=
  match store with
  | [] => []
  | a :: rest =>
      if a.id = aid then ⟨a.id, a.isEnabled, true, some price⟩ :: rest
      else a :: trigger_price_alert rest aid price

/-- One holding together with the live quote its valuation uses: current
price and previous close, both present. -/
structure LiveInput where
  sym : String
  hv : HoldingView
  cur : ℚ
  prev : ℚ
deriving DecidableEq, Repr

/-- Valuation of one holding against a live quote with both fields
present. -/
def liveEnhance (i : LiveInput) : EnhancedHolding :=
  enhanceHolding i.sym i.hv (some ⟨some i.cur, some i.prev⟩)

/-- The ledger of symbol X — buy 10 @ $100, buy 10 @ $200, sell 5 @ $300 —
as `get_portfolio_transactions` hands it to `calculate_holdings`:
newest-first. -/
def c1Ledger : List Tx :=
  [⟨"X", .sell, 5, 300, 3, 3⟩, ⟨"X", .buy, 10, 200, 2, 2⟩,
   ⟨"X", .buy, 10, 100, 1, 1⟩]

/-- A price alert `condition=above`, `targetPrice=100`, enabled and
untriggered. -/
def c3Alert : PriceAlert := ⟨.above, 100, true, false⟩

/-- A holding valued against a quote that moved from 100 to 110
(day change percent 10). -/
def c5A : LiveInput := ⟨"A", ⟨1, 100, 100⟩, 110, 100⟩

/-- A holding valued against a flat quote (day change percent 0). -/
def c5B : LiveInput := ⟨"B", ⟨1, 50, 50⟩, 50, 50⟩

/-- Two transactions on symbol X sharing timestamp 5, distinct insertion
ids. -/
def c6TxA : Tx := ⟨"X", .buy, 2, 10, 5, 1⟩

/-- The second equal-timestamp transaction on symbol X. -/
def c6TxB : Tx := ⟨"X", .sell, 1, 20, 5, 2⟩

/-- A holding of 10 shares, cost basis $500, average cost $50. -/
def c7Holding : HoldingView := ⟨10, 500, 50⟩

/-- A ledger holding symbol Y (2 shares) and oversold on symbol X
(a lone sell of 5 shares). -/
def c10Ledger : List Tx :=
  [⟨"X", .sell, 5, 100, 2, 2⟩, ⟨"Y", .buy, 2, 30, 1, 1⟩]

/-- The accumulator the fold of `c10Ledger` produces for the oversold
symbol X. -/
def c10AccX : HoldingAcc := ⟨-5, -500, [⟨"X", .sell, 5, 100, 2, 2⟩]⟩

/-- The active holding `calculate_holdings c10Ledger` produces for
symbol Y. -/
def c10HY : Holding := ⟨2, 60, 30, [⟨"Y", .buy, 2, 30, 1, 1⟩]⟩

/-! Helper lemmas about the holdings fold. -/

theorem totalShares_apply (h : HoldingAcc) (t : Tx) :
    (h.apply t).totalShares = h.totalShares + signedShares t := by
  obtain ⟨sym, k, sh, pr, ts, iid⟩ := t
  cases k <;> simp [HoldingAcc.apply, signedShares, sub_eq_add_neg]

theorem totalCost_apply (h : HoldingAcc) (t : Tx) :
    (h.apply t).totalCost = h.totalCost + signedCost t := by
  obtain ⟨sym, k, sh, pr, ts, iid⟩ := t
  cases k <;> simp [HoldingAcc.apply, signedCost, sub_eq_add_neg]

theorem findEntry_map_update (t : Tx) (s : String) :
    ∀ hs : List (String × HoldingAcc),
      findEntry
          (hs.map (fun p => if p.1 = t.symbol then (p.1, p.2.apply t) else p))
          s
        = (findEntry hs s).map
            (fun h => if t.symbol = s then h.apply t else h) := by
  intro hs
  induction hs with
  | nil => rfl
  | cons p rest ih =>
      by_cases hp : p.1 = s
      · by_cases hpt : p.1 = t.symbol
        · have hts : t.symbol = s := by rw [← hpt, hp]
          simp [findEntry, hp, hpt, hts]
        · have hts : ¬ t.symbol = s := by
            intro hts
            exact hpt (by rw [hp, hts])
          have hst : ¬ s = t.symbol := fun h => hts h.symm
          simp [findEntry, hp, hpt, hts, hst]
      · by_cases hpt : p.1 = t.symbol
        · have hts : ¬ t.symbol = s := by rw [← hpt]; exact hp
          simp [findEntry, hp, hpt, hts, ih]
        · simp [findEntry, hp, hpt, ih]

theorem findEntry_append {α : Type} (s : String) :
    ∀ l₁ l₂ : List (String × α),
      findEntry (l₁ ++ l₂) s = (findEntry l₁ s).or (findEntry l₂ s) := by
  intro l₁ l₂
  induction l₁ with
  | nil => simp [findEntry]
  | cons p rest ih => by_cases hp : p.1 = s <;> simp [findEntry, hp, ih]

theorem findEntry_eq_none_of_keys {α : Type} (s : String) :
    ∀ hs : List (String × α), (∀ p ∈ hs, p.1 ≠ s) → findEntry hs s = none := by
  intro hs
  induction hs with
  | nil => intro _; rfl
  | cons p rest ih =>
      intro hkeys
      have hp : p.1 ≠ s := hkeys p (by simp)
      simp only [findEntry, if_neg hp]
      exact ih fun q hq => hkeys q (by simp [hq])

theorem findEntry_ne_none_of_any (y : String) :
    ∀ hs : List (String × HoldingAcc),
      hs.any (fun p => p.1 == y) = true → findEntry hs y ≠ none := by
  intro hs
  induction hs with
  | nil => intro h; simp at h
  | cons p rest ih =>
      intro hany
      by_cases hp : p.1 = y
      · simp [findEntry, hp]
      · simp only [List.any_cons, Bool.or_eq_true, beq_iff_eq] at hany
        simp only [findEntry, if_neg hp]
        exact ih (List.any_eq_true.2 (by
          rcases hany with hany | hany
          · exact absurd hany hp
          · simpa using hany))

theorem accProj_insertTx (f : HoldingAcc → ℚ) (d : Tx → ℚ)
    (hap : ∀ h t, f (h.apply t) = f h + d t) (h0 : f HoldingAcc.empty = 0)
    (hs : List (String × HoldingAcc)) (t : Tx) (s : String) :
    accProj f (insertTx hs t) s
      = accProj f hs s + (if t.symbol = s then d t else 0) := by
  unfold insertTx
  by_cases hany : hs.any (fun p => p.1 == t.symbol) = true
  · rw [if_pos hany]
    unfold accProj
    rw [findEntry_map_update]
    cases hfe : findEntry hs s with
    | none =>
        have hts : ¬ t.symbol = s := by
          intro hts
          exact (findEntry_ne_none_of_any t.symbol hs hany) (hts ▸ hfe)
        simp [hts]
    | some h =>
        by_cases hts : t.symbol = s
        · simp [hts, hap]
        · simp [hts]
  · rw [if_neg hany]
    unfold accProj
    rw [findEntry_append]
    have hkeys : ∀ p ∈ hs, p.1 ≠ t.symbol := by
      intro p hp hpt
      exact hany (List.any_eq_true.2 ⟨p, hp, by simp [hpt]⟩)
    by_cases hts : t.symbol = s
    · have hnone : findEntry hs s = none :=
        findEntry_eq_none_of_keys s hs (fun p hp => hts ▸ hkeys p hp)
      rw [hnone]
      simp [findEntry, hts, hap, h0]
    · cases hfe : findEntry hs s <;> simp [findEntry, hts, hfe]

theorem accProj_foldl (f : HoldingAcc → ℚ) (d : Tx → ℚ)
    (hap : ∀ h t, f (h.apply t) = f h + d t) (h0 : f HoldingAcc.empty = 0) :
    ∀ (txs : List Tx) (hs : List (String × HoldingAcc)) (s : String),
      accProj f (txs.foldl insertTx hs) s
        = accProj f hs s
            + ((txs.filter (fun t => t.symbol == s)).map d).sum := by
  intro txs
  induction txs with
  | nil => intro hs s; simp
  | cons t rest ih =>
      intro hs s
      rw [List.foldl_cons, ih, accProj_insertTx f d hap h0]
      by_cases hts : t.symbol = s
      · simp only [List.filter_cons, beq_iff_eq, hts, if_true, ite_true,
          beq_self_eq_true, List.map_cons, List.sum_cons]
        ring
      · simp only [List.filter_cons, beq_iff_eq, decide_eq_true_eq,
          if_neg hts]
        ring

theorem accShares_fold (txs : List Tx) (s : String) :
    accShares (foldHoldings txs) s
      = ((txs.filter (fun t => t.symbol == s)).map signedShares).sum := by
  unfold accShares foldHoldings
  rw [accProj_foldl HoldingAcc.totalShares signedShares totalShares_apply rfl]
  simp [accProj, findEntry]

theorem accCost_fold (txs : List Tx) (s : String) :
    accCost (foldHoldings txs) s
      = ((txs.filter (fun t => t.symbol == s)).map signedCost).sum := by
  unfold accCost foldHoldings
  rw [accProj_foldl HoldingAcc.totalCost signedCost totalCost_apply rfl]
  simp [accProj, findEntry]

theorem insertTx_keys_nodup (hs : List (String × HoldingAcc)) (t : Tx)
    (hnd : (hs.map Prod.fst).Nodup) :
    ((insertTx hs t).map Prod.fst).Nodup := by
  unfold insertTx
  by_cases hany : hs.any (fun p => p.1 == t.symbol) = true
  · rw [if_pos hany]
    have hkeys : (hs.map (fun p =>
        if p.1 = t.symbol then (p.1, p.2.apply t) else p)).map Prod.fst
          = hs.map Prod.fst := by
      rw [List.map_map]
      refine List.map_congr_left fun p _ => ?_
      by_cases hp : p.1 = t.symbol <;> simp [hp]
    rw [hkeys]; exact hnd
  · rw [if_neg hany]
    have hmem : t.symbol ∉ hs.map Prod.fst := by
      intro hmem
      rcases List.mem_map.1 hmem with ⟨p, hp, hps⟩
      exact hany (List.any_eq_true.2 ⟨p, hp, by simp [hps]⟩)
    simp only [List.map_append, List.map_cons, List.map_nil]
    exact List.Nodup.append hnd (List.nodup_singleton _)
      (by simpa [List.disjoint_singleton] using hmem)

theorem foldHoldings_keys_nodup (txs : List Tx) :
    ((foldHoldings txs).map Prod.fst).Nodup := by
  have hgen : ∀ (l : List Tx) (hs : List (String × HoldingAcc)),
      (hs.map Prod.fst).Nodup → ((l.foldl insertTx hs).map Prod.fst).Nodup := by
    intro l
    induction l with
    | nil => intro hs h; exact h
    | cons t rest ih =>
        intro hs h
        exact ih (insertTx hs t) (insertTx_keys_nodup hs t h)
  exact hgen txs [] (by simp)

theorem nodup_keys_entry_unique {α : Type} {s : String} {a b : α} :
    ∀ hs : List (String × α), (hs.map Prod.fst).Nodup →
      (s, a) ∈ hs → (s, b) ∈ hs → a = b := by
  intro hs
  induction hs with
  | nil => intro _ ha _; exact absurd ha (List.not_mem_nil _)
  | cons p rest ih =>
      intro hnd ha hb
      simp only [List.map_cons, List.nodup_cons] at hnd
      rcases List.mem_cons.1 ha with ha | ha
      · rcases List.mem_cons.1 hb with hb | hb
        · rw [← ha] at hb; exact (Prod.mk.injEq _ _ _ _ ▸ hb.symm).2
        · exfalso
          exact hnd.1 (List.mem_map.2 ⟨(s, b), hb, by rw [← ha]⟩)
      · rcases List.mem_cons.1 hb with hb | hb
        · exfalso
          exact hnd.1 (List.mem_map.2 ⟨(s, a), ha, by rw [← hb]⟩)
        · exact ih hnd.2 ha hb

theorem findEntry_some_mem {α : Type} {s : String} {v : α} :
    ∀ hs : List (String × α), findEntry hs s = some v → (s, v) ∈ hs := by
  intro hs
  induction hs with
  | nil => intro h; exact absurd h (by simp [findEntry])
  | cons p rest ih =>
      intro h
      by_cases hp : p.1 = s
      · simp only [findEntry, if_pos hp, Option.some.injEq] at h
        exact List.mem_cons.2 (Or.inl (by rw [← hp, ← h]))
      · simp only [findEntry, if_neg hp] at h
        exact List.mem_cons.2 (Or.inr (ih h))

theorem mem_calculate_holdings {txs : List Tx} {s : String} {h : Holding}
    (hmem : (s, h) ∈ calculate_holdings txs) :
    ∃ acc : HoldingAcc, (s, acc) ∈ foldHoldings txs ∧ 0 < acc.totalShares ∧
      h = ⟨acc.totalShares, acc.totalCost, acc.totalCost / acc.totalShares,
        acc.transactions⟩ := by
  rcases List.mem_filterMap.1 hmem with ⟨p, hp, heq⟩
  by_cases hpos : 0 < p.2.totalShares
  · rw [if_pos hpos, Option.some.injEq] at heq
    refine ⟨p.2, ?_, hpos, ?_⟩
    · have : p.1 = s := (Prod.mk.injEq _ _ _ _ ▸ heq).1
      rw [← this]; exact hp
    · exact ((Prod.mk.injEq _ _ _ _ ▸ heq).2).symm
  · rw [if_neg hpos] at heq; exact absurd heq (by simp)

theorem foldl_add_congr {α : Type} (f g : α → ℚ) :
    ∀ (l : List α), (∀ x ∈ l, f x = g x) → ∀ c : ℚ,
      l.foldl (fun a x => a + f x) c = l.foldl (fun a x => a + g x) c := by
  intro l
  induction l with
  | nil => intro _ c; rfl
  | cons x rest ih =>
      intro hfg c
      simp only [List.foldl_cons]
      rw [hfg x (by simp), ih (fun y hy => hfg y (by simp [hy]))]

theorem foldl_add_eq_sum {α : Type} (g : α → ℚ) :
    ∀ (l : List α) (c : ℚ),
      l.foldl (fun a x => a + g x) c = c + (l.map g).sum := by
  intro l
  induction l with
  | nil => intro c; simp
  | cons x rest ih =>
      intro c
      simp only [List.foldl_cons, List.map_cons, List.sum_cons, ih]
      ring

theorem sum_map_sub {α : Type} (f g : α → ℚ) :
    ∀ l : List α,
      (l.map f).sum - (l.map g).sum = (l.map (fun x => f x - g x)).sum := by
  intro l
  induction l with
  | nil => simp
  | cons x rest ih =>
      simp only [List.map_cons, List.sum_cons]
      rw [← ih]; ring

/-! Claim theorems. -/

theorem c1_holdings_eval :
    calculate_holdings c1Ledger = [("X", ⟨15, 1500, 100, c1Ledger⟩)] := by
  norm_num [c1Ledger, calculate_holdings, List.filterMap, foldHoldings,
    insertTx, HoldingAcc.apply, HoldingAcc.empty]

/-- C1, counterexample: on the ledger buy 10 @ $100, buy 10 @ $200,
sell 5 @ $300 for symbol X, `calculate_holdings` returns totalShares = 15
but totalCostBasis = $1,500, not the claimed $2,250: the sell branch
subtracts `shares * price`, the sale price, not the pre-sale average
cost. -/
theorem c1_counterexample :
    (findEntry (calculate_holdings c1Ledger) "X").map Holding.totalShares
        = some 15 ∧
    (findEntry (calculate_holdings c1Ledger) "X").map Holding.totalCost
        = some 1500 ∧
    ¬ (findEntry (calculate_holdings c1Ledger) "X").map Holding.totalCost
        = some 2250 := by
  rw [c1_holdings_eval]
  refine ⟨by norm_num [findEntry], by norm_num [findEntry], ?_⟩
  norm_num [findEntry]

/-- C1, amended: on that ledger the holdings computation returns
totalShares = 15 and totalCostBasis = $1,500 — a sell reduces
totalCostBasis by shares times the sale price (`totalCost -= shares *
price` at `models_old.py:148`), not by shares times the pre-sale average
cost. -/
theorem c1_amended (h : HoldingAcc) (sym : String) (sh pr : ℚ)
    (ts iid : ℕ) :
    (findEntry (calculate_holdings c1Ledger) "X").map Holding.totalShares
        = some 15 ∧
    (findEntry (calculate_holdings c1Ledger) "X").map Holding.totalCost
        = some 1500 ∧
    (h.apply ⟨sym, TxType.sell, sh, pr, ts, iid⟩).totalCost
        = h.totalCost - sh * pr := by
  rw [c1_holdings_eval]
  refine ⟨by norm_num [findEntry], by norm_num [findEntry], ?_⟩
  simp [HoldingAcc.apply]

/-- C2, counterexample: a sell of 5 shares of AAPL against an empty ledger
passes every validation of the transaction route and is appended to the
ledger — the write is not rejected and the ledger does change; the folded
share balance of AAPL afterwards is -5. -/
theorem c2_counterexample :
    (create_transaction_route [] "AAPL" "sell" 5 100 7 1).2
        = RouteOutcome.created 1 ∧
    (create_transaction_route [] "AAPL" "sell" 5 100 7 1).1 ≠ [] ∧
    accShares
        (foldHoldings (create_transaction_route [] "AAPL" "sell" 5 100 7 1).1)
        "AAPL" = -5 := by
  have hU : upperStr "AAPL" = "AAPL" := rfl
  have hsb : ¬ ("sell" : String) = "buy" := by decide
  refine ⟨?_, ?_, ?_⟩ <;>
    norm_num [create_transaction_route, create_transaction, hU, hsb,
      accShares, accProj, foldHoldings, insertTx, findEntry,
      HoldingAcc.apply, HoldingAcc.empty]

/-- C2, amended: no oversell check exists — every sell with a positive
share count and price is accepted by the route and appended to the ledger
unconditionally, whatever the current holdings; oversold symbols are later
silently dropped by the read-time `totalShares > 0` filter rather than
rejected at write time. -/
theorem c2_amended (ledger : List Tx) (symbol : String) (shares price : ℚ)
    (ts txid : ℕ) (hsh : 0 < shares) (hpr : 0 < price) :
    create_transaction_route ledger symbol "sell" shares price ts txid
      = (ledger ++ [⟨upperStr symbol, TxType.sell, shares, price, ts, txid⟩],
         RouteOutcome.created txid) := by
  have hv : ("sell" : String) = "buy" ∨ ("sell" : String) = "sell" :=
    Or.inr rfl
  have hnp : ¬ (shares ≤ 0 ∨ price ≤ 0) := by rintro (h | h) <;> linarith
  have hsb : ¬ ("sell" : String) = "buy" := by decide
  unfold create_transaction_route create_transaction
  rw [if_pos hv, if_neg hnp, if_neg hsb]

/-- C2, witness for the amended theorem at a concrete input. -/
theorem c2_witness :
    (0:ℚ) < 5 ∧ (0:ℚ) < 100 ∧
    create_transaction_route [] "IBM" "sell" 5 100 2 9
      = ([⟨"IBM", TxType.sell, 5, 100, 2, 9⟩], RouteOutcome.created 9) := by
  refine ⟨by norm_num, by norm_num, ?_⟩
  rw [c2_amended [] "IBM" 5 100 2 9 (by norm_num) (by norm_num)]
  rfl

/-- C3: over the quote sequence [95, 98, 101, 105], an enabled untriggered
above-100 alert notifies exactly on the pass observing 101 (the trace of
`send_price_alert` calls is [false, false, true, false]) and ends
triggered; and any pass over an already-triggered alert leaves it unchanged
and sends nothing. -/
theorem c3_trigger_once :
    runMonitorTrace c3Alert [95, 98, 101, 105]
      = ([false, false, true, false], ⟨Cond.above, 100, true, true⟩) ∧
    ∀ (a : PriceAlert) (p : ℚ),
      monitorPassAlert ⟨a.condition, a.targetPrice, a.enabled, true⟩ (some p)
        = (⟨a.condition, a.targetPrice, a.enabled, true⟩, false) := by
  refine ⟨?_, fun a p => ?_⟩
  · norm_num [runMonitorTrace, monitorPassAlert, c3Alert]
  · simp [monitorPassAlert]

/-- C4, counterexample: with a stored baseline of $1,000 and a new
portfolio value of $1,005 (0.5% and $5 change, zero daily change percent),
the monitor pass emits nothing and leaves the stored baseline at $1,000 —
it is not updated to the new totalValue. -/
theorem c4_counterexample :
    monitorPortfolioStep (some 1000) 1005 0 = (false, some 1000) ∧
    some (1000:ℚ) ≠ some (1005:ℚ) := by
  have habs : |(1005:ℚ) - 1000| = 5 := by
    rw [show (1005:ℚ) - 1000 = 5 by norm_num]
    exact abs_of_pos (by norm_num)
  constructor
  · norm_num [monitorPortfolioStep, portfolioShouldUpdate, habs]
  · norm_num

/-- C4, amended: the stored baseline is updated to the newly computed
totalValue exactly when a notification was emitted in that pass; when no
notification is emitted the baseline keeps its previous value. -/
theorem c4_amended (previous : Option ℚ) (currentValue dailyChangePercent : ℚ) :
    (monitorPortfolioStep previous currentValue dailyChangePercent).2
      = if (monitorPortfolioStep previous currentValue dailyChangePercent).1
        then some currentValue else previous := by
  by_cases h : portfolioShouldUpdate previous currentValue dailyChangePercent
      = true
  · simp [monitorPortfolioStep, h]
  · simp [monitorPortfolioStep, h]

/-- C6: the holdings computation is deterministic on its input, and the
folded aggregate totalShares and totalCost of every symbol are invariant
under any permutation of the transaction list — in particular under
permutations of transactions sharing a timestamp. -/
theorem c6_order_stable (l l' : List Tx) (hperm : l.Perm l') :
    calculate_holdings l = calculate_holdings l ∧
    ∀ s : String,
      accShares (foldHoldings l) s = accShares (foldHoldings l') s ∧
      accCost (foldHoldings l) s = accCost (foldHoldings l') s := by
  refine ⟨rfl, fun s => ⟨?_, ?_⟩⟩
  · rw [accShares_fold, accShares_fold]
    exact List.Perm.sum_eq
      (List.Perm.map signedShares (List.Perm.filter _ hperm))
  · rw [accCost_fold, accCost_fold]
    exact List.Perm.sum_eq
      (List.Perm.map signedCost (List.Perm.filter _ hperm))

/-- C6, witness: two equal-timestamp transactions on X swapped. -/
theorem c6_witness :
    List.Perm [c6TxA, c6TxB] [c6TxB, c6TxA] ∧
    (accShares (foldHoldings [c6TxA, c6TxB]) "X"
        = accShares (foldHoldings [c6TxB, c6TxA]) "X" ∧
     accCost (foldHoldings [c6TxA, c6TxB]) "X"
        = accCost (foldHoldings [c6TxB, c6TxA]) "X") :=
  ⟨List.Perm.swap c6TxB c6TxA [],
   (c6_order_stable [c6TxA, c6TxB] [c6TxB, c6TxA]
      (List.Perm.swap c6TxB c6TxA [])).2 "X"⟩

/-- C9: `get_portfolio_stats` values every holding at `totalShares *
averageCost`, which equals its `totalCost`, so for every ledger the summary
has totalValue = totalCost, totalGainLoss = 0 and
totalGainLossPercent = 0. -/
theorem c9_stats_zero_gain (txs : List Tx) :
    (get_portfolio_stats txs).totalValue = (get_portfolio_stats txs).totalCost ∧
    (get_portfolio_stats txs).totalGainLoss = 0 ∧
    (get_portfolio_stats txs).totalGainLossPercent = 0 := by
  have hval : ∀ p ∈ calculate_holdings txs,
      p.2.totalShares * p.2.averageCost = p.2.totalCost := by
    intro p hp
    obtain ⟨s, h⟩ := p
    obtain ⟨acc, _, hpos, hform⟩ := mem_calculate_holdings hp
    subst hform
    show acc.totalShares * (acc.totalCost / acc.totalShares) = acc.totalCost
    rw [mul_comm, div_mul_cancel₀ _ (ne_of_gt hpos)]
  have hvc : (get_portfolio_stats txs).totalValue
      = (get_portfolio_stats txs).totalCost := by
    show (calculate_holdings txs).foldl
        (fun acc p => acc + p.2.totalShares * p.2.averageCost) 0
      = (calculate_holdings txs).foldl (fun acc p => acc + p.2.totalCost) 0
    exact foldl_add_congr _ _ (calculate_holdings txs) hval 0
  have hg : (get_portfolio_stats txs).totalGainLoss
      = (get_portfolio_stats txs).totalValue
        - (get_portfolio_stats txs).totalCost := rfl
  have hg0 : (get_portfolio_stats txs).totalGainLoss = 0 := by
    rw [hg, hvc, sub_self]
  have hpct : (get_portfolio_stats txs).totalGainLossPercent
      = if 0 < (get_portfolio_stats txs).totalCost
        then (get_portfolio_stats txs).totalGainLoss
          / (get_portfolio_stats txs).totalCost * 100
        else 0 := rfl
  refine ⟨hvc, hg0, ?_⟩
  rw [hpct, hg0]
  simp

/-- C10: every holding returned by `calculate_holdings` has
totalShares > 0 and averageCost = totalCost / totalShares (so the division
is never by zero); a symbol whose folded balance is non-positive — for
example one driven negative by an oversell — is absent from the returned
map. -/
theorem c10_average_cost_guard (txs : List Tx) (s : String) :
    (∀ h : Holding, findEntry (calculate_holdings txs) s = some h →
        0 < h.totalShares ∧ h.averageCost = h.totalCost / h.totalShares) ∧
    (∀ acc : HoldingAcc, findEntry (foldHoldings txs) s = some acc →
        acc.totalShares ≤ 0 →
        findEntry (calculate_holdings txs) s = none) := by
  constructor
  · intro h hf
    obtain ⟨acc, _, hpos, hform⟩ :=
      mem_calculate_holdings (findEntry_some_mem (calculate_holdings txs) hf)
    subst hform
    exact ⟨hpos, rfl⟩
  · intro acc hacc hle
    cases hfe : findEntry (calculate_holdings txs) s with
    | none => rfl
    | some h =>
        exfalso
        obtain ⟨acc', hm', hpos', _⟩ :=
          mem_calculate_holdings
            (findEntry_some_mem (calculate_holdings txs) hfe)
        have hmemacc : (s, acc) ∈ foldHoldings txs :=
          findEntry_some_mem (foldHoldings txs) hacc
        have heq : acc' = acc :=
          nodup_keys_entry_unique (foldHoldings txs)
            (foldHoldings_keys_nodup txs) hm' hmemacc
        rw [heq] at hpos'
        exact absurd hpos' (not_lt.2 hle)

/-- C10, witness: on a ledger oversold in X and long 2 shares of Y, the
fold gives X a balance of -5, X is absent from the holdings map, and Y's
returned holding satisfies the average-cost equation. -/
theorem c10_witness :
    (findEntry (foldHoldings c10Ledger) "X" = some c10AccX ∧
      c10AccX.totalShares ≤ 0) ∧
    findEntry (calculate_holdings c10Ledger) "X" = none ∧
    (0 < c10HY.totalShares ∧
      c10HY.averageCost = c10HY.totalCost / c10HY.totalShares) :=
  ⟨⟨by norm_num [c10Ledger, c10AccX, foldHoldings, insertTx, findEntry,
        HoldingAcc.apply, HoldingAcc.empty],
    by norm_num [c10AccX]⟩,
   (c10_average_cost_guard c10Ledger "X").2 c10AccX
     (by norm_num [c10Ledger, c10AccX, foldHoldings, insertTx, findEntry,
        HoldingAcc.apply, HoldingAcc.empty])
     (by norm_num [c10AccX]),
   (c10_average_cost_guard c10Ledger "Y").1 c10HY
     (by norm_num [c10Ledger, c10HY, calculate_holdings, foldHoldings,
        insertTx, findEntry, HoldingAcc.apply, HoldingAcc.empty])⟩

/-- C7, counterexample: for a holding of 10 shares at average cost $50 with
no quote available, the degraded valuation is equal, field for field, to
the valuation produced from a live quote of price $50 — no field of the
response marks the valuation as degraded. -/
theorem c7_counterexample :
    enhanceHolding "ACME" c7Holding none
      = enhanceHolding "ACME" c7Holding (some ⟨some 50, some 50⟩) := by
  norm_num [enhanceHolding, c7Holding]

/-- C7, amended: when no quote is available the valuation does fall back to
`averageCost` as the current price (with day change 0), but the response
carries no degraded flag: the fallback record is identical to the record a
live quote priced at `averageCost` would produce. -/
theorem c7_amended (s : String) (h : HoldingView) :
    (enhanceHolding s h none).currentPrice = h.averageCost ∧
    (enhanceHolding s h none).totalValue = h.totalShares * h.averageCost ∧
    (enhanceHolding s h none).dayChange = 0 ∧
    enhanceHolding s h none
      = enhanceHolding s h (some ⟨some h.averageCost, some h.averageCost⟩) := by
  refine ⟨rfl, rfl, rfl, ?_⟩
  simp [enhanceHolding]

/-- C8, counterexample: two racing passes that both read the alert enabled
and untriggered before either commits both send a notification (2, not 1),
and `trigger_price_alert` applied to an already-triggered alert still
matches and rewrites it — its filter carries no `triggered = false`
clause, so there is no conditional update for a loser to observe
failing. -/
theorem c8_counterexample :
    (runInterleavedPasses ⟨true, false⟩ true).2 = 2 ∧ (2:ℕ) ≠ 1 ∧
    trigger_price_alert [⟨1, true, true, some 50⟩] 1 60
      = [⟨1, true, true, some 60⟩] := by
  refine ⟨rfl, by norm_num, ?_⟩
  norm_num [trigger_price_alert]

/-- C8, amended: the trigger write is unconditional, so the race outcome is
decided purely by scheduling: when both passes read before either writes,
both notify (two notifications whenever the alert is armed and the
condition met); only when the passes run back to back does the second pass
skip, giving exactly one notification. -/
theorem c8_amended (a : AlertFlag) (conditionMet : Bool) :
    (runInterleavedPasses a conditionMet).2
        = (if alertPassDecision a conditionMet then 2 else 0) ∧
    (runSequentialPasses a conditionMet).2
        = (if alertPassDecision a conditionMet then 1 else 0) := by
  obtain ⟨e, t⟩ := a
  cases e <;> cases t <;> cases conditionMet <;> exact ⟨rfl, rfl⟩

/-- C5, counterexample: holding A (1 share, quote 100 → 110) and holding B
(1 share, flat quote at 50) give an aggregate daily change of 60, not the
10 = 1×(110−100) + 1×(50−50) of the claim: B's zero day change excludes it
from the previous-value sum, so its full market value of 50 lands in the
aggregate daily change.  The total market value is 160, so the claim would
also demand a daily change percent of 10/(160−10)×100, yet the code
returns 60 for the percent as well. -/
theorem c5_counterexample :
    (summaryDailyChange [liveEnhance c5A, liveEnhance c5B]).1 = 60 ∧
    (summaryDailyChange [liveEnhance c5A, liveEnhance c5B]).2 = 60 ∧
    c5A.hv.totalShares * (c5A.cur - c5A.prev)
        + c5B.hv.totalShares * (c5B.cur - c5B.prev) = 10 ∧
    sumTotalValue [liveEnhance c5A, liveEnhance c5B] = 160 ∧
    (60:ℚ) ≠ 10 ∧
    (60:ℚ) ≠ 10 / (160 - 10) * 100 := by
  refine ⟨?_, ?_, by norm_num [c5A, c5B], ?_, by norm_num, by norm_num⟩ <;>
    norm_num [summaryDailyChange, sumTotalValue, sumPreviousValue,
      liveEnhance, enhanceHolding, c5A, c5B]

theorem foldl_ite_add_eq_sum {α : Type} (P : α → Prop) [DecidablePred P]
    (g : α → ℚ) :
    ∀ (l : List α) (c : ℚ),
      l.foldl (fun acc x => if P x then acc + g x else acc) c
        = c + (l.map (fun x => if P x then g x else 0)).sum := by
  intro l
  induction l with
  | nil => intro c; simp
  | cons x rest ih =>
      intro c
      by_cases hx : P x
      · simp only [List.foldl_cons, if_pos hx, List.map_cons,
          List.sum_cons, ih]
        ring
      · simp only [List.foldl_cons, if_neg hx, List.map_cons,
          List.sum_cons, ih]
        ring

theorem liveEnhance_dayChange (i : LiveInput) (hp : 0 < i.prev) :
    (liveEnhance i).dayChange = (i.cur - i.prev) / i.prev * 100 := by
  simp [liveEnhance, enhanceHolding, hp]

theorem liveEnhance_dayChange_eq_zero_iff (i : LiveInput) (hp : 0 < i.prev) :
    (liveEnhance i).dayChange = 0 ↔ i.cur = i.prev := by
  rw [liveEnhance_dayChange i hp]
  have hpne : i.prev ≠ 0 := ne_of_gt hp
  constructor
  · intro h
    rcases mul_eq_zero.1 h with h1 | h1
    · rcases div_eq_zero_iff.1 h1 with h2 | h2
      · exact sub_eq_zero.1 h2
      · exact absurd h2 hpne
    · norm_num at h1
  · intro h
    rw [h]
    simp

theorem liveEnhance_prev_reconstruct (i : LiveInput) (hp : 0 < i.prev)
    (hc : 0 < i.cur) :
    (liveEnhance i).currentPrice / (1 + (liveEnhance i).dayChange / 100)
      = i.prev := by
  have hpne : i.prev ≠ 0 := ne_of_gt hp
  have hcne : i.cur ≠ 0 := ne_of_gt hc
  have hcp : (liveEnhance i).currentPrice = i.cur := rfl
  rw [hcp, liveEnhance_dayChange i hp]
  have h1 : 1 + (i.cur - i.prev) / i.prev * 100 / 100 = i.cur / i.prev := by
    field_simp
    ring
  rw [h1, div_div_eq_mul_div, mul_comm, mul_div_assoc, div_self hcne,
    mul_one]

theorem sumPreviousValue_live (inputs : List LiveInput)
    (hpos : ∀ i ∈ inputs, 0 < i.prev ∧ 0 < i.cur) :
    sumPreviousValue (inputs.map liveEnhance)
      = (inputs.map (fun i => if i.cur ≠ i.prev
          then i.hv.totalShares * i.prev else 0)).sum := by
  unfold sumPreviousValue
  rw [foldl_ite_add_eq_sum (fun h : EnhancedHolding => h.dayChange ≠ 0)
    (fun h => h.shares * (h.currentPrice / (1 + h.dayChange / 100)))
    (inputs.map liveEnhance) 0, zero_add, List.map_map]
  refine congrArg List.sum (List.map_congr_left fun i hi => ?_)
  obtain ⟨hp, hc⟩ := hpos i hi
  by_cases hne : i.cur = i.prev
  · have hdz : (liveEnhance i).dayChange = 0 :=
      (liveEnhance_dayChange_eq_zero_iff i hp).2 hne
    simp [Function.comp, hdz, hne]
  · have hdz : ¬ (liveEnhance i).dayChange = 0 :=
      fun h => hne ((liveEnhance_dayChange_eq_zero_iff i hp).1 h)
    have hshares : (liveEnhance i).shares = i.hv.totalShares := rfl
    simp [Function.comp, hdz, hne, hshares,
      liveEnhance_prev_reconstruct i hp hc]

theorem sumTotalValue_live (inputs : List LiveInput) :
    sumTotalValue (inputs.map liveEnhance)
      = (inputs.map (fun i => i.hv.totalShares * i.cur)).sum := by
  unfold sumTotalValue
  rw [foldl_add_eq_sum (fun h : EnhancedHolding => h.totalValue)
    (inputs.map liveEnhance) 0, zero_add, List.map_map]
  refine congrArg List.sum (List.map_congr_left fun i _ => ?_)
  rfl

theorem summaryDailyChange_percent (holdings : List EnhancedHolding) :
    (summaryDailyChange holdings).2
      = (summaryDailyChange holdings).1
        / (sumTotalValue holdings - (summaryDailyChange holdings).1)
        * 100 := by
  unfold summaryDailyChange
  by_cases hemp : holdings.isEmpty
  · simp [hemp]
  · simp only [hemp, Bool.false_eq_true, if_false]
    by_cases hS : 0 < sumPreviousValue holdings
    · simp only [if_pos hS]
      have hden : sumTotalValue holdings
          - (sumTotalValue holdings - sumPreviousValue holdings)
          = sumPreviousValue holdings := by ring
      rw [hden]
    · simp [if_neg hS]

theorem summaryDailyChange_not_pos (holdings : List EnhancedHolding)
    (h : ¬ 0 < sumPreviousValue holdings) :
    summaryDailyChange holdings = (0, 0) := by
  unfold summaryDailyChange
  by_cases hemp : holdings.isEmpty <;> simp [hemp, h]

/-- C5, amended: for holdings valued from live quotes with positive current
and previous-close prices, the aggregate daily change is `totalMarketValue`
minus a previous-value sum taken over holdings with nonzero day change
only — so a holding whose day change is nonzero contributes shares ×
(currentPrice − previousClose), while a holding with zero day change
contributes its full shares × currentPrice, and the aggregate is 0 when
that previous-value sum is not positive; the aggregate daily change
percent always equals aggregateDailyChange / (totalMarketValue −
aggregateDailyChange) × 100 (0, never NaN or infinity, when the
previous-value sum is not positive, in which case the monitor returns
(0, 0)). -/
theorem c5_amended (inputs : List LiveInput)
    (hpos : ∀ i ∈ inputs, 0 < i.prev ∧ 0 < i.cur) :
    ((summaryDailyChange (inputs.map liveEnhance)).1
      = if 0 < (inputs.map (fun i => if i.cur ≠ i.prev
              then i.hv.totalShares * i.prev else 0)).sum
        then (inputs.map (fun i => if i.cur ≠ i.prev
              then i.hv.totalShares * (i.cur - i.prev)
              else i.hv.totalShares * i.cur)).sum
        else 0) ∧
    ((summaryDailyChange (inputs.map liveEnhance)).2
      = (summaryDailyChange (inputs.map liveEnhance)).1
        / ((inputs.map (fun i => i.hv.totalShares * i.cur)).sum
            - (summaryDailyChange (inputs.map liveEnhance)).1)
        * 100) ∧
    (¬ 0 < (inputs.map (fun i => if i.cur ≠ i.prev
          then i.hv.totalShares * i.prev else 0)).sum →
      summaryDailyChange (inputs.map liveEnhance) = (0, 0)) := by
  have hcomb : (inputs.map (fun i => i.hv.totalShares * i.cur)).sum
      - (inputs.map (fun i => if i.cur ≠ i.prev
          then i.hv.totalShares * i.prev else 0)).sum
      = (inputs.map (fun i => if i.cur ≠ i.prev
          then i.hv.totalShares * (i.cur - i.prev)
          else i.hv.totalShares * i.cur)).sum := by
    rw [sum_map_sub]
    refine congrArg List.sum (List.map_congr_left fun i _ => ?_)
    by_cases hne : i.cur = i.prev
    · simp [hne]
    · simp only [hne, ne_eq, not_false_eq_true, if_true, ite_true]
      ring
  refine ⟨?_, ?_, ?_⟩
  · by_cases hemp : inputs = []
    · subst hemp
      simp [summaryDailyChange]
    · have hne : (inputs.map liveEnhance).isEmpty = false := by
        cases inputs with
        | nil => exact absurd rfl hemp
        | cons a l => rfl
      simp only [summaryDailyChange, hne, Bool.false_eq_true, if_false]
      rw [sumPreviousValue_live inputs hpos, sumTotalValue_live inputs]
      by_cases hS : 0 < (inputs.map (fun i => if i.cur ≠ i.prev
          then i.hv.totalShares * i.prev else 0)).sum
      · simp only [if_pos hS]
        exact hcomb
      · simp only [if_neg hS]
  · rw [← sumTotalValue_live inputs]
    exact summaryDailyChange_percent (inputs.map liveEnhance)
  · intro hnS
    refine summaryDailyChange_not_pos (inputs.map liveEnhance) ?_
    rw [sumPreviousValue_live inputs hpos]
    exact hnS

/-- C5, witness for the amended theorem at the two concrete holdings:
dailyChange 60 and dailyChangePercent 60 = 60/(160−60)×100. -/
theorem c5_witness :
    (∀ i ∈ [c5A, c5B], 0 < i.prev ∧ 0 < i.cur) ∧
    (summaryDailyChange ([c5A, c5B].map liveEnhance)).1 = 60 ∧
    (summaryDailyChange ([c5A, c5B].map liveEnhance)).2 = 60 := by
  have hyp : ∀ i ∈ [c5A, c5B], 0 < i.prev ∧ 0 < i.cur := by
    intro i hi
    rcases List.mem_cons.1 hi with h | h
    · subst h; exact ⟨by norm_num [c5A], by norm_num [c5A]⟩
    · rcases List.mem_cons.1 h with h | h
      · subst h; exact ⟨by norm_num [c5B], by norm_num [c5B]⟩
      · exact absurd h (List.not_mem_nil i)
  have h1 : (summaryDailyChange ([c5A, c5B].map liveEnhance)).1 = 60 := by
    rw [(c5_amended [c5A, c5B] hyp).1]
    norm_num [c5A, c5B]
  refine ⟨hyp, h1, ?_⟩
  rw [(c5_amended [c5A, c5B] hyp).2.1, h1]
  norm_num [c5A, c5B]

end AlphaInsights
